import Mathlib

/-!
Shallow embedding of `src/livedoppler3.py` (live Doppler radar waterfall).

Conventions of the embedding:
* Python floats are modelled as exact rationals (`ℚ`) where the code does
  rational arithmetic (decoding, the speed axis) and as real numbers (`ℝ`)
  where it is transcendental (Hann window, FFT, logarithms).
* `int(x)` in Python truncates toward zero; `pyInt` models it.
* `np.log10` maps `0` to `-inf`; decibel values therefore live in `EReal`.
* numpy boolean-mask indexing `a[mask]` is a filter.
* The serial port delivers at most one byte per `ser.read()`; a loop
  iteration consumes an `Option ℕ` (a byte, or nothing).
-/

namespace LiveDoppler

/-- Speed of light, `c = 299e6` (m/s), line 29 of the source. -/
def c : ℚ := 299000000

/-- Radar carrier frequency, `fc = 2440e6` (Hz), line 30 of the source. -/
def fc : ℚ := 2440000000

/-- Python `int(q)`: truncation toward zero (`Int.div` is T-division and
`q.den > 0`). -/
def pyInt (q : ℚ) : ℤ := Int.tdiv q.num q.den

/-- `windowsize = int(cpi*Fs)` (line 74). -/
def windowsize (cpi Fs : ℚ) : ℕ := (pyInt (cpi * Fs)).toNat

/-- `np.fft.fftfreq(n, d)`: entry `i` is `i/(d*n)` for `i < (n+1)/2`
(the nonnegative frequencies) and `(i-n)/(d*n)` afterwards. -/
def fftfreq (n : ℕ) (d : ℚ) : List ℚ :=
  (List.range n).map (fun i =>
    if i < (n + 1) / 2 then (i : ℚ) / (d * n) else ((i : ℚ) - n) / (d * n))

/-- `speedaxis = (np.fft.fftfreq(windowsize, d=1.0/Fs)*c/fc)[0:int(windowsize/2)]`
(line 76): scale every frequency to a speed, keep the first `N/2` entries. -/
def speedaxisFull (N : ℕ) (Fs : ℚ) : List ℚ :=
  ((fftfreq N (1 / Fs)).map (fun f => f * c / fc)).take (N / 2)

/-- `speedaxis = speedaxis[speedaxis <= maxspeed]` (line 79): numpy boolean
masking keeps exactly the entries `≤ maxspeed`, in order. -/
def speedaxisCropped (N : ℕ) (Fs maxspeed : ℚ) : List ℚ :=
  (speedaxisFull N Fs).filter (fun x => x ≤ maxspeed)

/-- `K`: the retained-bin count, `speedaxis.shape[0]` after the crop. -/
def K (N : ℕ) (Fs maxspeed : ℚ) : ℕ :=
  (speedaxisCropped N Fs maxspeed).length

/-- `np.hanning(M)` (line 75): `0.5 - 0.5*cos(2*pi*k/(M-1))` for
`k = 0, …, M-1`; numpy returns `[1.0]` for `M = 1`. -/
noncomputable def hanning (M : ℕ) : List ℝ :=
  if M = 1 then [1] else
    (List.range M).map (fun k : ℕ =>
      0.5 - 0.5 * Real.cos (2 * Real.pi * k / (M - 1)))

/-- `np.fft.fft` (line 98): the full discrete Fourier transform,
`X[k] = sum over n of x[n] * exp(-2*pi*i*k*n/N)`, `N` the input length. -/
noncomputable def dft (x : List ℂ) : List ℂ :=
  (List.range x.length).map (fun k : ℕ =>
    ∑ n ∈ Finset.range x.length,
      x.getD n 0 * Complex.exp (-2 * (Real.pi : ℂ) * Complex.I * k * n / x.length))

/-- `20*np.log10(x)` on a magnitude `x ≥ 0`: numpy yields `-inf` at `0`,
so decibel values live in `EReal` with `dB 0 = ⊥`. -/
noncomputable def dB (x : ℝ) : EReal :=
  if x = 0 then ⊥ else ((20 * Real.logb 10 x : ℝ) : EReal)

/-- Line 98, `20*np.log10(np.abs(np.fft.fft(han*data))[0:speedaxis.shape[0]])`:
window the samples, Fourier-transform, take magnitudes, keep the first `K`
bins, convert to decibels. -/
noncomputable def transform (N : ℕ) (Fs maxspeed : ℚ) (samples : List ℝ) :
    List EReal :=
  ((dft ((List.zipWith (fun h s => h * s) (hanning N) samples).map
      Complex.ofReal)).map Complex.abs).take (K N Fs maxspeed)
    |>.map (fun x => dB x)

/-- The code's magnitude pipeline of line 98 up to the slice: the full
`N`-point FFT magnitudes, directly sliced `[0:K]`. -/
noncomputable def directSliceMag (Kbins : ℕ) (x : List ℝ) : List ℝ :=
  ((dft (x.map Complex.ofReal)).map Complex.abs).take Kbins

/-- Modelled from the spec (section 4.3, steps 3 and 5), for comparison
with `directSliceMag`: first take the one-sided spectrum — the first `N/2`
magnitude bins — then crop to the first `K` bins. -/
noncomputable def onesidedThenCrop (Kbins : ℕ) (x : List ℝ) : List ℝ :=
  (((dft (x.map Complex.ofReal)).map Complex.abs).take (x.length / 2)).take Kbins

/-- The scaling of one 12-bit value (line 95): `raw12*3.3/(2**12) - 3.3/2`. -/
def voltageOf (raw12 : ℕ) : ℚ := raw12 * (33 / 10) / 4096 - (33 / 10) / 2

/-- Lines 93–95: pair consecutive bytes `(b[2i], b[2i+1])`, compose
`raw12 = 256*b[2i] + b[2i+1]`, scale to voltage. -/
def decode : List ℕ → List ℚ
  | b1 :: b2 :: rest => voltageOf (256 * b1 + b2) :: decode rest
  | _ => []

/-- `np.roll(doppler, 1, axis=0)` (line 97): every row moves down one
position and the last row wraps around to the front. -/
def roll1 {α : Type u_1} (l : List α) : List α :=
  l.drop (l.length - 1) ++ l.take (l.length - 1)

/-- `doppler[0,:] = row` (line 98): overwrite row 0, keep the others
(an empty array would raise an IndexError, so the empty case is inert). -/
def setHead {α : Type u_1} (r : α) : List α → List α
  | [] => []
  | _ :: t => r :: t

/-- One waterfall-buffer update: roll by one, then overwrite row 0
(lines 97–98). -/
def update {α : Type u_1} (buf : List α) (r : α) : List α :=
  setHead r (roll1 buf)

/-- A sequence of waterfall updates, oldest first. -/
def applyUpdates {α : Type u_1} (buf : List α) (rows : List α) : List α :=
  rows.foldl update buf

/-- numpy boolean column masking `a[:, axis <= m]` applied to one row:
keep the entries whose axis value is `≤ m`, in order. -/
def maskLe {α : Type u_1} (axis : List ℚ) (m : ℚ) (row : List α) : List α :=
  (axis.zip row).filterMap (fun p => if p.1 ≤ m then some p.2 else none)

/-- The scalar arguments of `livedoppler` (line 32). -/
structure Params where
  cpi : ℚ
  loopduration : ℚ
  maxspeed : ℚ
  Fs : ℚ

/-- Row count of the waterfall, `int(loopduration/cpi)` (line 77). -/
def depth (p : Params) : ℕ := (pyInt (p.loopduration / p.cpi)).toNat

/-- Short-hand for this run's `windowsize`. -/
def W (p : Params) : ℕ := windowsize p.cpi p.Fs

/-- Lines 77–78: `doppler = np.zeros((int(loopduration/cpi), int(windowsize/2)))`
then `doppler = doppler[:, speedaxis <= maxspeed]`. -/
def initDoppler (p : Params) : List (List EReal) :=
  (List.replicate (depth p) (List.replicate (W p / 2) (0 : EReal))).map
    (maskLe (speedaxisFull (W p) p.Fs) p.maxspeed)

/-- The variables the collection loop (lines 86–103) mutates: the byte
accumulator `rawbin`, the waterfall `doppler`, and (immutable in the body,
but a local variable all the same) the cropped `speedaxis`. -/
structure LState where
  rawbin : List ℕ
  doppler : List (List EReal)
  speedaxis : List ℚ

/-- Lines 87–89: `ser.read()` yields at most one byte; an empty read
leaves `rawbin` unchanged, otherwise the byte is appended. -/
def pushByte (b : Option ℕ) (rb : List ℕ) : List ℕ :=
  match b with
  | some x => rb ++ [x]
  | none => rb

/-- One iteration of the `while True` body (lines 87–103): read and append
at most one byte; when `len(rawbin) >= 2*windowsize`, decode the frame,
roll the waterfall, write the new spectrum at row 0 and clear `rawbin`. -/
noncomputable def step (p : Params) (s : LState) (b : Option ℕ) : LState :=
  let rb := pushByte b s.rawbin
  if 2 * W p ≤ rb.length then
    { rawbin := [],
      doppler := setHead
        (transform (W p) p.Fs p.maxspeed ((decode rb).map (fun q => (q : ℝ))))
        (roll1 s.doppler),
      speedaxis := s.speedaxis }
  else
    { s with rawbin := rb }

/-- State at the top of the loop, line 86: empty accumulator, zero-filled
cropped waterfall, cropped speed axis. -/
def initLState (p : Params) : LState :=
  { rawbin := [],
    doppler := initDoppler p,
    speedaxis := speedaxisCropped (W p) p.Fs p.maxspeed }

/-- Run the loop over a trace of reads (`none` = empty read). -/
noncomputable def runSteps (p : Params) (trace : List (Option ℕ)) : LState :=
  trace.foldl (step p) (initLState p)

/-- The framing condition of line 90: after this iteration's read, the
accumulated byte count has reached `2*windowsize`, so a frame is processed. -/
def fires (p : Params) (s : LState) (b : Option ℕ) : Prop :=
  2 * W p ≤ (pushByte b s.rawbin).length

/-- Program points of the loop body at statement granularity. `top` is
line 87; `rolled` is between line 97 (`np.roll`) and line 98 (the row
write); `stopped` is the `except KeyboardInterrupt` handler (line 106). -/
inductive PC
  | top
  | rolled
  | stopped
deriving DecidableEq

/-- Machine state for the interrupt analysis. -/
structure MState where
  pc : PC
  rawbin : List ℕ
  doppler : List (List EReal)

/-- Small-step semantics of the `try` body (lines 86–103) under Python's
asynchronous `KeyboardInterrupt`: CPython may raise the interrupt between
any two statements inside the `try`, and the bare `except KeyboardInterrupt`
(line 106) then abandons the body wherever it stands, keeping the current
values of the locals. -/
inductive MStep (p : Params) : MState → MState → Prop
  | poll (s : MState) (b : Option ℕ) :
      s.pc = PC.top → ¬ 2 * W p ≤ (pushByte b s.rawbin).length →
      MStep p s ⟨PC.top, pushByte b s.rawbin, s.doppler⟩
  | roll (s : MState) (b : Option ℕ) :
      s.pc = PC.top → 2 * W p ≤ (pushByte b s.rawbin).length →
      MStep p s ⟨PC.rolled, pushByte b s.rawbin, roll1 s.doppler⟩
  | write (s : MState) :
      s.pc = PC.rolled →
      MStep p s ⟨PC.top, [],
        setHead (transform (W p) p.Fs p.maxspeed
          ((decode s.rawbin).map (fun q => (q : ℝ)))) s.doppler⟩
  | interrupt (s : MState) :
      s.pc ≠ PC.stopped →
      MStep p s ⟨PC.stopped, s.rawbin, s.doppler⟩

/-! ### Shape lemmas for the spectral pipeline -/

theorem hanning_length (M : ℕ) : (hanning M).length = M := by
  rw [hanning]
  split
  · rename_i h
    rw [h]
    rfl
  · rw [List.length_map, List.length_range]

theorem dft_length (x : List ℂ) : (dft x).length = x.length := by
  rw [dft, List.length_map, List.length_range]

theorem fftfreq_length (n : ℕ) (d : ℚ) : (fftfreq n d).length = n := by
  simp [fftfreq]

theorem speedaxisFull_length (N : ℕ) (Fs : ℚ) :
    (speedaxisFull N Fs).length = N / 2 := by
  simp [speedaxisFull, fftfreq_length, Nat.div_le_self]

theorem K_le_half (N : ℕ) (Fs m : ℚ) : K N Fs m ≤ N / 2 := by
  calc K N Fs m ≤ (speedaxisFull N Fs).length :=
        (speedaxisFull N Fs).length_filter_le _
    _ = N / 2 := speedaxisFull_length N Fs

theorem transform_length (N : ℕ) (Fs m : ℚ) (samples : List ℝ)
    (h : samples.length = N) :
    (transform N Fs m samples).length = K N Fs m := by
  have hK : K N Fs m ≤ N := (K_le_half N Fs m).trans (Nat.div_le_self N 2)
  simp [transform, dft_length, hanning_length, h, hK, Nat.min_eq_left]

/-! ### Decoder lemmas -/

theorem decode_length : ∀ b : List ℕ, (decode b).length = b.length / 2
  | [] => by simp [decode]
  | [_] => by simp [decode]
  | b1 :: b2 :: rest => by
    simp [decode, decode_length rest]
    omega

theorem decode_getElem? : ∀ (b : List ℕ) (i : ℕ), 2 * i + 1 < b.length →
    (decode b)[i]? = some (voltageOf (256 * b.getD (2 * i) 0 + b.getD (2 * i + 1) 0))
  | [], i, h => by simp at h
  | [_], i, h => by simp at h
  | b1 :: b2 :: rest, 0, h => by simp [decode]
  | b1 :: b2 :: rest, i + 1, h => by
    have h' : 2 * i + 1 < rest.length := by simp at h; omega
    have e2 : 2 * (i + 1) + 1 = 2 * i + 1 + 1 + 1 := by omega
    have e1 : 2 * (i + 1) = 2 * i + 1 + 1 := by omega
    rw [e2, e1]
    simp [decode, decode_getElem? rest i h']

theorem voltageOf_mem_Ico (raw12 : ℕ) (h : raw12 ≤ 4095) :
    (-(33 / 20) : ℚ) ≤ voltageOf raw12 ∧ voltageOf raw12 < 33 / 20 := by
  have h0 : (0 : ℚ) ≤ (raw12 : ℚ) := by positivity
  have h1 : (raw12 : ℚ) ≤ 4095 := by exact_mod_cast h
  constructor
  · rw [voltageOf]; linarith
  · rw [voltageOf]; linarith

/-! ### Waterfall-buffer lemmas -/

theorem roll1_length {α : Type u_1} (l : List α) : (roll1 l).length = l.length := by
  simp [roll1]

theorem setHead_length {α : Type u_1} (r : α) (l : List α) :
    (setHead r l).length = l.length := by
  cases l <;> simp [setHead]

theorem update_length {α : Type u_1} (buf : List α) (r : α) :
    (update buf r).length = buf.length := by
  rw [update, setHead_length, roll1_length]

theorem roll1_ne_nil {α : Type u_1} (l : List α) (h : l ≠ []) : roll1 l ≠ [] := by
  intro hc
  have hl := roll1_length l
  rw [hc] at hl
  exact h (List.eq_nil_of_length_eq_zero hl.symm)

theorem update_eq_cons_dropLast {α : Type u_1} (buf : List α) (r : α)
    (h : buf ≠ []) : update buf r = r :: buf.dropLast := by
  have hl : 1 ≤ buf.length := List.length_pos.mpr h
  obtain ⟨x, hx⟩ := List.length_eq_one.mp
    (show (buf.drop (buf.length - 1)).length = 1 by rw [List.length_drop]; omega)
  rw [update, roll1, hx, List.dropLast_eq_take]
  rfl

theorem take_dropLast_eq {α : Type u_1} (l : List α) (k : ℕ)
    (hk : k ≤ l.length - 1) : l.dropLast.take k = l.take k := by
  rw [List.dropLast_eq_take, List.take_take, Nat.min_eq_left hk]

theorem applyUpdates_eq {α : Type u_1} : ∀ (rows : List α) (buf : List α),
    buf ≠ [] → applyUpdates buf rows = (rows.reverse ++ buf).take buf.length
  | [], buf, _ => by simp [applyUpdates]
  | r :: rs, buf, h => by
    have hne : update buf r ≠ [] := by
      rw [update_eq_cons_dropLast buf r h]
      exact List.cons_ne_nil _ _
    have step1 : applyUpdates buf (r :: rs) = applyUpdates (update buf r) rs := rfl
    rw [step1, applyUpdates_eq rs (update buf r) hne, update_length,
        update_eq_cons_dropLast buf r h, List.reverse_cons, List.append_assoc,
        List.singleton_append, List.take_append_eq_append_take,
        List.take_append_eq_append_take]
    congr 1
    rcases Nat.eq_zero_or_eq_succ_pred (buf.length - rs.reverse.length) with hm | hm
    · rw [hm, List.take_zero, List.take_zero]
    · rw [hm, List.take_succ_cons, List.take_succ_cons,
          take_dropLast_eq buf _ (by omega)]

theorem mem_update {α : Type u_1} (buf : List α) (r row : α)
    (h : row ∈ update buf r) : row = r ∨ row ∈ buf := by
  by_cases hb : buf = []
  · subst hb; simp [update, roll1, setHead] at h
  · rw [update_eq_cons_dropLast buf r hb] at h
    rcases List.mem_cons.mp h with h | h
    · exact Or.inl h
    · exact Or.inr (List.dropLast_subset buf h)

theorem maskLe_replicate {α : Type u_1} (m : ℚ) (x : α) : ∀ axis : List ℚ,
    maskLe axis m (List.replicate axis.length x)
      = List.replicate ((axis.filter fun a => a ≤ m).length) x
  | [] => by simp [maskLe]
  | a :: rest => by
    have ih := maskLe_replicate m x rest
    rw [maskLe] at ih ⊢
    simp only [List.length_cons, List.replicate_succ, List.zip_cons_cons,
      List.filterMap_cons, List.filter_cons]
    by_cases h : a ≤ m
    · simp [h, ih, List.replicate_succ]
    · simp [h, ih]

theorem getD_replicate_zero : ∀ (n i : ℕ), (List.replicate n (0 : ℂ)).getD i 0 = 0
  | 0, _ => by simp
  | n + 1, 0 => by simp [List.replicate_succ]
  | n + 1, i + 1 => by
    simp [List.replicate_succ, List.getD_cons_succ, getD_replicate_zero n i]

theorem dft_replicate_zero (n : ℕ) :
    dft (List.replicate n 0) = List.replicate n 0 := by
  rw [dft, List.length_replicate, List.eq_replicate_iff]
  refine ⟨by simp, ?_⟩
  intro b hb
  simp only [List.mem_map, List.mem_range] at hb
  obtain ⟨k, _, rfl⟩ := hb
  apply Finset.sum_eq_zero
  intro j _
  rw [getD_replicate_zero, zero_mul]

theorem zipWith_mul_replicate_zero : ∀ (l : List ℝ) (n : ℕ),
    List.zipWith (fun h s => h * s) l (List.replicate n (0 : ℝ))
      = List.replicate (min l.length n) 0
  | [], n => by simp
  | a :: t, 0 => by simp
  | a :: t, n + 1 => by
    simp [List.replicate_succ, zipWith_mul_replicate_zero t n,
      Nat.succ_min_succ, List.replicate_succ]

theorem speedaxisFull_getElem? (N : ℕ) (Fs : ℚ) (k : ℕ) (hFs : 0 < Fs)
    (hk : k < N / 2) :
    (speedaxisFull N Fs)[k]? = some (k * Fs / N * c / fc) := by
  have hkN : k < N := lt_of_lt_of_le hk (Nat.div_le_self N 2)
  have hN : (0 : ℕ) < N := by omega
  have hk2 : k < (N + 1) / 2 := by omega
  rw [speedaxisFull, List.getElem?_take, if_pos hk, List.getElem?_map, fftfreq,
    List.getElem?_map, List.getElem?_range hkN]
  rw [Option.map_some', Option.map_some', Option.some_inj, if_pos hk2]
  have hFs' : (Fs : ℚ) ≠ 0 := ne_of_gt hFs
  have hN' : (N : ℚ) ≠ 0 := by exact_mod_cast Nat.pos_iff_ne_zero.mp hN
  field_simp

theorem initDoppler_shape (p : Params) :
    initDoppler p = List.replicate (depth p)
      (List.replicate (K (W p) p.Fs p.maxspeed) (0 : EReal)) := by
  rw [initDoppler, List.map_replicate]
  congr 1
  have hlen : W p / 2 = (speedaxisFull (W p) p.Fs).length :=
    (speedaxisFull_length (W p) p.Fs).symm
  rw [hlen, maskLe_replicate]
  rfl

/-! ### Loop-step lemmas -/

theorem step_rawbin_lt (p : Params) (hW : 1 ≤ W p) (s : LState) (b : Option ℕ) :
    (step p s b).rawbin.length < 2 * W p := by
  by_cases hcond : 2 * W p ≤ (pushByte b s.rawbin).length
  · simp only [step, if_pos hcond, List.length_nil]
    omega
  · simp only [step, if_neg hcond]
    omega

theorem foldl_step_rawbin_lt (p : Params) (hW : 1 ≤ W p) :
    ∀ (trace : List (Option ℕ)) (s : LState), s.rawbin.length < 2 * W p →
      (trace.foldl (step p) s).rawbin.length < 2 * W p
  | [], _, hs => hs
  | b :: ts, s, _ =>
    foldl_step_rawbin_lt p hW ts (step p s b) (step_rawbin_lt p hW s b)

theorem runSteps_rawbin_lt (p : Params) (hW : 1 ≤ W p)
    (trace : List (Option ℕ)) :
    (runSteps p trace).rawbin.length < 2 * W p := by
  apply foldl_step_rawbin_lt p hW trace
  simp [initLState]
  omega

theorem pushByte_length (b : Option ℕ) (rb : List ℕ) :
    (pushByte b rb).length = rb.length ∨
      (pushByte b rb).length = rb.length + 1 := by
  cases b <;> simp [pushByte]

theorem step_fires_rawbin (p : Params) (s : LState) (b : Option ℕ)
    (h : fires p s b) : (step p s b).rawbin = [] := by
  rw [fires] at h
  simp only [step, if_pos h]

theorem step_doppler_cases (p : Params) (s : LState) (b : Option ℕ) :
    (step p s b).doppler = s.doppler ∨
      ∃ row, (step p s b).doppler = update s.doppler row := by
  by_cases hcond : 2 * W p ≤ (pushByte b s.rawbin).length
  · right
    refine ⟨transform (W p) p.Fs p.maxspeed
      ((decode (pushByte b s.rawbin)).map (fun q => (q : ℝ))), ?_⟩
    simp only [step, if_pos hcond, update]
  · left
    simp only [step, if_neg hcond]

theorem step_speedaxis (p : Params) (s : LState) (b : Option ℕ) :
    (step p s b).speedaxis = s.speedaxis := by
  by_cases hcond : 2 * W p ≤ (pushByte b s.rawbin).length
  · simp only [step, if_pos hcond]
  · simp only [step, if_neg hcond]

/-! ### Concrete-value lemmas (rational arithmetic evaluated) -/

theorem windowsize_default : windowsize (1 / 2) 2000 = 1000 := by
  norm_num [windowsize, pyInt]
  decide

theorem W_small : W ⟨1, 2, 30, 2⟩ = 2 := by
  norm_num [W, windowsize, pyInt]
  decide

theorem K_window4 : K 4 2000 30 = 1 := by
  norm_num [K, speedaxisCropped, speedaxisFull, fftfreq, c, fc, List.filter]

/-! ### Claim theorems -/

/-- C1: for every analysis window of exactly `window_size` samples, the
spectral transform of line 98 produces a row whose length is exactly `K`,
the number of speed-axis entries `≤ maxspeed`, for any window size. -/
theorem C1_transform_length_eq_K (N : ℕ) (Fs maxspeed : ℚ)
    (samples : List ℝ) (h : samples.length = N) :
    (transform N Fs maxspeed samples).length = K N Fs maxspeed :=
  transform_length N Fs maxspeed samples h

theorem C1_transform_length_eq_K_witness :
    ([(0 : ℝ), 0, 0, 0].length = 4) ∧
      (transform 4 2000 30 [(0 : ℝ), 0, 0, 0]).length = K 4 2000 30 :=
  ⟨rfl, C1_transform_length_eq_K 4 2000 30 [0, 0, 0, 0] rfl⟩

/-- C2: on an even-length byte list, `decode` (lines 93–95) yields
`length/2` samples; sample `i` is byte pair `(b[2i], b[2i+1])` composed
big-endian and scaled; and every composition `raw12 ∈ [0, 4095]` decodes
into `[-1.65, 1.65)` volts. -/
theorem C2_decode_pairs_and_range (b : List ℕ) (i raw12 : ℕ)
    (he : b.length % 2 = 0) (hi : i < b.length / 2) (hr : raw12 ≤ 4095) :
    (decode b).length = b.length / 2 ∧
    (decode b)[i]? =
      some (voltageOf (256 * b.getD (2 * i) 0 + b.getD (2 * i + 1) 0)) ∧
    (-(33 / 20) : ℚ) ≤ voltageOf raw12 ∧ voltageOf raw12 < 33 / 20 := by
  refine ⟨decode_length b, ?_, (voltageOf_mem_Ico raw12 hr).1,
    (voltageOf_mem_Ico raw12 hr).2⟩
  exact decode_getElem? b i (by omega)

theorem C2_decode_pairs_and_range_witness :
    ([0, 16].length % 2 = 0) ∧ (0 < [0, 16].length / 2) ∧ (4095 ≤ 4095) ∧
    ((decode [0, 16]).length = [0, 16].length / 2 ∧
     (decode [0, 16])[0]? =
       some (voltageOf (256 * [0, 16].getD 0 0 + [0, 16].getD 1 0)) ∧
     (-(33 / 20) : ℚ) ≤ voltageOf 4095 ∧ voltageOf 4095 < 33 / 20) :=
  ⟨by decide, by decide, by decide,
    C2_decode_pairs_and_range [0, 16] 0 4095 (by decide) (by decide) (by decide)⟩

/-- C3: the transform of an all-zero window. The claim says every bin is a
defined finite floor value; the code (line 98) computes `20*log10(0)`,
which is `-inf` — here the sole retained bin of the window-size-4 run is
exactly `⊥`, the model of numpy's `-inf`. -/
theorem C3_zero_window_is_neg_infinity :
    transform 4 2000 30 (List.replicate 4 (0 : ℝ)) = [(⊥ : EReal)] := by
  have h1 : List.zipWith (fun h s => h * s) (hanning 4)
      (List.replicate 4 (0 : ℝ)) = List.replicate 4 0 := by
    rw [zipWith_mul_replicate_zero, hanning_length, min_self]
  have h2 : (List.replicate 4 (0 : ℝ)).map Complex.ofReal
      = List.replicate 4 (0 : ℂ) := by simp
  have h3 : (List.replicate 4 (0 : ℂ)).map Complex.abs
      = List.replicate 4 (0 : ℝ) := by simp
  rw [transform, h1, h2, dft_replicate_zero, h3, K_window4]
  rw [List.take_replicate]
  simp [dB]

/-- C4: starting from a freshly initialized buffer of `depth` rows,
`depth` updates with distinct rows leave exactly those rows, newest at
index 0 and oldest at index `depth-1`; one further update evicts only the
original oldest row (the first row pushed) and prepends the new one. -/
theorem C4_waterfall_fifo {α : Type} (d : ℕ) (z : α) (rows : List α) (r' : α)
    (hlen : rows.length = d) (hd : 0 < d) (_hnd : rows.Nodup) :
    applyUpdates (List.replicate d z) rows = rows.reverse ∧
    update (applyUpdates (List.replicate d z) rows) r'
      = r' :: (rows.drop 1).reverse := by
  have hne : List.replicate d z ≠ [] := by
    rw [Ne, List.replicate_eq_nil_iff]
    omega
  have h1 := applyUpdates_eq rows (List.replicate d z) hne
  rw [List.length_replicate] at h1
  have h2 : (rows.reverse ++ List.replicate d z).take d = rows.reverse :=
    List.take_left' (by simp [hlen])
  have main : applyUpdates (List.replicate d z) rows = rows.reverse := by
    rw [h1, h2]
  have hrne : rows.reverse ≠ [] := by
    rw [Ne, List.reverse_eq_nil_iff]
    intro hc
    rw [hc] at hlen
    simp at hlen
    omega
  refine ⟨main, ?_⟩
  rw [main, update_eq_cons_dropLast _ _ hrne, List.drop_one,
    List.dropLast_reverse]

theorem C4_waterfall_fifo_witness :
    ([1, 2] : List ℕ).length = 2 ∧ 0 < 2 ∧ ([1, 2] : List ℕ).Nodup ∧
    (applyUpdates (List.replicate 2 (0 : ℕ)) [1, 2] = ([1, 2] : List ℕ).reverse ∧
     update (applyUpdates (List.replicate 2 (0 : ℕ)) [1, 2]) 3
       = 3 :: (([1, 2] : List ℕ).drop 1).reverse) :=
  ⟨rfl, by decide, by decide, C4_waterfall_fifo 2 0 [1, 2] 3 rfl (by decide) (by decide)⟩

/-- C5: the waterfall's dimensions are invariant: the buffer is initialized
to `depth = int(loopduration/cpi)` rows of width `K`; an update never
changes the row count nor the row widths; and in a loop step the buffer is
either untouched or changed exactly by one `update`. -/
theorem C5_dimensions_invariant (buf : List (List EReal)) (r : List EReal)
    (w : ℕ) (p : Params) (s : LState) (b : Option ℕ)
    (hw : ∀ row ∈ buf, row.length = w) (hr : r.length = w) :
    (update buf r).length = buf.length ∧
    (∀ row ∈ update buf r, row.length = w) ∧
    (initDoppler p).length = depth p ∧
    (∀ row ∈ initDoppler p, row.length = K (W p) p.Fs p.maxspeed) ∧
    ((step p s b).doppler = s.doppler ∨
      ∃ row, (step p s b).doppler = update s.doppler row) := by
  refine ⟨update_length buf r, ?_, ?_, ?_, step_doppler_cases p s b⟩
  · intro row hm
    rcases mem_update buf r row hm with h | h
    · rw [h]; exact hr
    · exact hw row h
  · rw [initDoppler_shape, List.length_replicate]
  · rw [initDoppler_shape]
    intro row hm
    rw [List.eq_of_mem_replicate hm, List.length_replicate]

theorem C5_dimensions_invariant_witness :
    (∀ row ∈ ([[0], [1]] : List (List EReal)), row.length = 1) ∧
    (([42] : List EReal).length = 1) ∧
    ((update ([[0], [1]] : List (List EReal)) [42]).length
        = ([[0], [1]] : List (List EReal)).length ∧
     (∀ row ∈ update ([[0], [1]] : List (List EReal)) [42], row.length = 1) ∧
     (initDoppler ⟨1, 2, 30, 2⟩).length = depth ⟨1, 2, 30, 2⟩ ∧
     (∀ row ∈ initDoppler ⟨1, 2, 30, 2⟩,
        row.length = K (W ⟨1, 2, 30, 2⟩) (2 : ℚ) (30 : ℚ)) ∧
     ((step ⟨1, 2, 30, 2⟩ ⟨[], [], []⟩ none).doppler
          = (⟨[], [], []⟩ : LState).doppler ∨
       ∃ row, (step ⟨1, 2, 30, 2⟩ ⟨[], [], []⟩ none).doppler
          = update (⟨[], [], []⟩ : LState).doppler row)) :=
  ⟨by simp, rfl,
    C5_dimensions_invariant [[0], [1]] [42] 1 ⟨1, 2, 30, 2⟩ ⟨[], [], []⟩ none
      (by simp) rfl⟩

/-- C6: speed-axis bin `k` (for `k < windowsize/2`) equals
`(k*Fs/N)*c/fc` with `c = 2.99e8` and `fc = 2.44e9`; the crop retains
exactly the entries `≤ maxspeed` (in order, as a sublist); and no loop
step ever modifies the speed axis after startup. -/
theorem C6_speedaxis_formula_and_crop (N : ℕ) (Fs maxspeed : ℚ) (k : ℕ)
    (hFs : 0 < Fs) (hk : k < N / 2) :
    (speedaxisFull N Fs)[k]? = some (k * Fs / N * c / fc) ∧
    (∀ x ∈ speedaxisCropped N Fs maxspeed, x ≤ maxspeed) ∧
    (speedaxisCropped N Fs maxspeed).Sublist (speedaxisFull N Fs) ∧
    (∀ x ∈ speedaxisFull N Fs, x ≤ maxspeed →
       x ∈ speedaxisCropped N Fs maxspeed) ∧
    (∀ (q : Params) (s : LState) (b : Option ℕ),
       (step q s b).speedaxis = s.speedaxis) := by
  refine ⟨speedaxisFull_getElem? N Fs k hFs hk, ?_, ?_, ?_,
    fun q s b => step_speedaxis q s b⟩
  · intro x hx
    rw [speedaxisCropped] at hx
    simpa using (List.mem_filter.mp hx).2
  · exact List.filter_sublist _
  · intro x hx hle
    rw [speedaxisCropped]
    exact List.mem_filter.mpr ⟨hx, by simpa using hle⟩

theorem C6_speedaxis_formula_and_crop_witness :
    (0 : ℚ) < 2000 ∧ (1 : ℕ) < 4 / 2 ∧
    ((speedaxisFull 4 2000)[1]? = some ((1 : ℕ) * 2000 / (4 : ℕ) * c / fc) ∧
     (∀ x ∈ speedaxisCropped 4 2000 30, x ≤ 30) ∧
     (speedaxisCropped 4 2000 30).Sublist (speedaxisFull 4 2000) ∧
     (∀ x ∈ speedaxisFull 4 2000, x ≤ 30 → x ∈ speedaxisCropped 4 2000 30) ∧
     (∀ (q : Params) (s : LState) (b : Option ℕ),
        (step q s b).speedaxis = s.speedaxis)) :=
  ⟨by decide, by decide, C6_speedaxis_formula_and_crop 4 2000 30 1 (by decide) (by decide)⟩

/-- C7: filtering the speed axis to entries `≤ max_speed` is idempotent:
re-filtering the cropped axis with the same bound changes nothing. -/
theorem C7_crop_idempotent (N : ℕ) (Fs m : ℚ) :
    (speedaxisCropped N Fs m).filter (fun x => x ≤ m)
      = speedaxisCropped N Fs m := by
  rw [speedaxisCropped, List.filter_filter]
  simp

/-- C8: along any run of the loop from startup, the accumulator stays
below `2*windowsize`; a frame fires exactly when this iteration's
(at most one) appended byte brings the count to exactly `2*windowsize`;
the accumulator is cleared after a frame; and with the defaults
`cpi = 0.5`, `Fs = 2000` the window is 1000 samples, i.e. 2000 bytes. -/
theorem C8_framer_fires_exactly_at_full (p : Params)
    (trace : List (Option ℕ)) (b : Option ℕ) (hW : 1 ≤ W p) :
    (runSteps p trace).rawbin.length < 2 * W p ∧
    (fires p (runSteps p trace) b ↔
      (pushByte b (runSteps p trace).rawbin).length = 2 * W p) ∧
    (fires p (runSteps p trace) b → (step p (runSteps p trace) b).rawbin = []) ∧
    windowsize (1 / 2) 2000 = 1000 := by
  have hinv := runSteps_rawbin_lt p hW trace
  refine ⟨hinv, ?_, fun h => step_fires_rawbin p _ b h, windowsize_default⟩
  rw [fires]
  rcases pushByte_length b (runSteps p trace).rawbin with h | h <;> omega

theorem C8_framer_fires_exactly_at_full_witness :
    1 ≤ W ⟨1, 2, 30, 2⟩ ∧
    ((runSteps ⟨1, 2, 30, 2⟩ []).rawbin.length < 2 * W ⟨1, 2, 30, 2⟩ ∧
     (fires ⟨1, 2, 30, 2⟩ (runSteps ⟨1, 2, 30, 2⟩ []) none ↔
       (pushByte none (runSteps ⟨1, 2, 30, 2⟩ []).rawbin).length
         = 2 * W ⟨1, 2, 30, 2⟩) ∧
     (fires ⟨1, 2, 30, 2⟩ (runSteps ⟨1, 2, 30, 2⟩ []) none →
       (step ⟨1, 2, 30, 2⟩ (runSteps ⟨1, 2, 30, 2⟩ []) none).rawbin = []) ∧
     windowsize (1 / 2) 2000 = 1000) :=
  ⟨by simp [W_small], C8_framer_fires_exactly_at_full ⟨1, 2, 30, 2⟩ [] none
    (by simp [W_small])⟩

/-- C9: the claim says in-flight frame processing always completes before
the pipeline stops. In the code the `except KeyboardInterrupt` wraps the
whole loop body, so the asynchronous interrupt can land between the
`np.roll` (line 97) and the row write (line 98): the machine below steps
from the top of the loop into the mid-frame `rolled` point, is interrupted
there, and stops with the rolled-but-unwritten buffer — which differs from
the buffer of every completed frame boundary of this run. -/
theorem C9_interrupt_mid_frame :
    MStep ⟨1, 2, 30, 2⟩
        ⟨PC.top, [0, 0, 0], [[(0 : EReal)], [(1 : EReal)]]⟩
        ⟨PC.rolled, [0, 0, 0, 0], [[(1 : EReal)], [(0 : EReal)]]⟩ ∧
    MStep ⟨1, 2, 30, 2⟩
        ⟨PC.rolled, [0, 0, 0, 0], [[(1 : EReal)], [(0 : EReal)]]⟩
        ⟨PC.stopped, [0, 0, 0, 0], [[(1 : EReal)], [(0 : EReal)]]⟩ ∧
    ([[(1 : EReal)], [(0 : EReal)]] : List (List EReal))
      ≠ [[(0 : EReal)], [(1 : EReal)]] := by
  refine ⟨?_, ?_, ?_⟩
  · exact MStep.roll ⟨PC.top, [0, 0, 0], [[(0 : EReal)], [(1 : EReal)]]⟩
      (some 0) rfl (by rw [W_small]; decide)
  · exact MStep.interrupt
      ⟨PC.rolled, [0, 0, 0, 0], [[(1 : EReal)], [(0 : EReal)]]⟩ (by decide)
  · simp

/-- C10: slicing the full-FFT magnitude list directly to the first `K`
bins (the code) equals first taking the one-sided spectrum (first `N/2`
bins, the spec) and then cropping to `K`, whenever `K ≤ N/2` and the
window length `N` is even. -/
theorem C10_direct_slice_refines_onesided (x : List ℝ) (N Kbins : ℕ)
    (hN : x.length = N) (he : N % 2 = 0) (hK : Kbins ≤ N / 2) :
    directSliceMag Kbins x = onesidedThenCrop Kbins x := by
  rw [directSliceMag, onesidedThenCrop, List.take_take,
    Nat.min_eq_left (by omega : Kbins ≤ x.length / 2)]

theorem C10_direct_slice_refines_onesided_witness :
    ([(0 : ℝ), 0].length = 2) ∧ (2 % 2 = 0) ∧ (1 ≤ 2 / 2) ∧
    directSliceMag 1 [(0 : ℝ), 0] = onesidedThenCrop 1 [(0 : ℝ), 0] :=
  ⟨rfl, by decide, by decide,
    C10_direct_slice_refines_onesided [(0 : ℝ), 0] 2 1 rfl (by decide) (by decide)⟩

end LiveDoppler
